import Mathlib

/-!
Verification of the template-storage / tokenization / substitution / re-parsing
core of the ethers-wallet-manager CLI.

Shallow embedding conventions:
* JS strings are modelled as Lean `String` / `List Char` (the repository only
  manipulates BMP text, where JS UTF-16 code units coincide with characters).
* JS plain objects used as string-keyed maps (`contracts`, `commands`) are
  modelled as association lists with JS object-update semantics: assigning to
  an existing key replaces the value in place, otherwise the pair is appended.
* Thrown exceptions are modelled with `Except` over an error-kind type.
* Timestamps (`createdAt` / `updatedAt`) and the `abi` payload are environment
  data irrelevant to control flow and are omitted from the records.
-/

namespace EthersWalletCli

/-- Error kinds of the core (spec §7 taxonomy; the source throws `Error`
objects whose message distinguishes the same cases). -/
inductive WMError where
  | malformedInvocation
  | validationError
  | arityError
  | notFoundError
  | duplicateError
deriving DecidableEq

/-- Decidable equality for `Except`, used to evaluate modelled operations on
concrete inputs. -/
instance {ε α : Type} [DecidableEq ε] [DecidableEq α] : DecidableEq (Except ε α)
  | Except.error a, Except.error b => decidable_of_iff (a = b) (by simp)
  | Except.error _, Except.ok _ => Decidable.isFalse (by intro h; cases h)
  | Except.ok _, Except.error _ => Decidable.isFalse (by intro h; cases h)
  | Except.ok a, Except.ok b => decidable_of_iff (a = b) (by simp)

/-- The double-quote character. -/
def dquote : Char := Char.ofNat 34

/-- The single-quote character. -/
def squote : Char := Char.ofNat 39

/-! ### Tokenizer: `WalletManager.parseCommandLine` (wallet-manager.ts 479-509) -/

/-- Mutable locals of the `for` loop of `parseCommandLine`:
`args`, `current`, `inQuotes`, `quoteChar` (the JS `quoteChar` is a string
that is either empty or a single quote character; we model it as
`Option Char`). -/
structure TokSt where
  args : List (List Char)
  current : List Char
  inQuotes : Bool
  quoteChar : Option Char
deriving DecidableEq

/-- One iteration of the character loop of `parseCommandLine`. -/
def tokStep (st : TokSt) (c : Char) : TokSt :=
  if (c = dquote ∨ c = squote) ∧ st.inQuotes = false then
    { st with inQuotes := true, quoteChar := some c }
  else if some c = st.quoteChar ∧ st.inQuotes = true then
    { st with inQuotes := false, quoteChar := none }
  else if c = ' ' ∧ st.inQuotes = false then
    (if st.current ≠ [] then { st with args := st.args ++ [st.current], current := [] } else st)
  else
    { st with current := st.current ++ [c] }

/-- The trailing `if (current) args.push(current)` of `parseCommandLine`. -/
def finishTok (st : TokSt) : List (List Char) :=
  if st.current ≠ [] then st.args ++ [st.current] else st.args

/-- `WalletManager.parseCommandLine`: split a command string into tokens,
honoring single/double quotes. -/
def parseCommandLine (command : String) : List String :=
  (finishTok (command.data.foldl tokStep ⟨[], [], false, none⟩)).map String.mk

/-! ### Reference tokenizer for the tokenization claim

A second, independently structured tokenizer written from the specification's
description of the algorithm (spec §4.3), with the separator amended to the
space character (the source splits only on `' '`, not on general whitespace):
read one token at a time; an unquoted quote character opens a span closed only
by the matching quote, both quote characters being consumed; a space inside an
open span is kept; an unquoted space ends the token; an unclosed span runs to
the end of the input; a token that is empty after quote consumption is
dropped. -/

/-- Read one token starting at the current position. `acc` is the text read so
far, `q` the currently open quote character (if any). Returns the token and
the rest of the input (the terminating unquoted space consumed). -/
def readToken : List Char → List Char → Option Char → List Char × List Char
  | [], acc, _ => (acc, [])
  | c :: cs, acc, some qc =>
    if c = qc then readToken cs acc none
    else readToken cs (acc ++ [c]) (some qc)
  | c :: cs, acc, none =>
    if c = ' ' then (acc, cs)
    else if c = dquote ∨ c = squote then readToken cs acc (some c)
    else readToken cs (acc ++ [c]) none

/-- Fueled token-list reader (fuel bounds the number of characters left, so
that the definition is structurally recursive and evaluates in the kernel). -/
def specTokensF : Nat → List Char → List (List Char)
  | 0, _ => []
  | _ + 1, [] => []
  | fuel + 1, c :: cs =>
    if c = ' ' then specTokensF fuel cs
    else
      let r := readToken (c :: cs) [] none
      if r.1 = [] then specTokensF fuel r.2 else r.1 :: specTokensF fuel r.2

/-- Reference tokenizer (spec §4.3, separator amended to the space
character). -/
def specTokens (l : List Char) : List (List Char) :=
  specTokensF l.length l

/-- Finish a partially read token against the reference tokenizer: used to
state the correspondence from arbitrary intermediate states. -/
def specFinish (r : List Char × List Char) : List (List Char) :=
  if r.1 = [] then specTokens r.2 else r.1 :: specTokens r.2

/-! ### Invocation reconstruction: `WalletManager.parseQuickCommand`
(wallet-manager.ts 418-477) -/

/-- Result record of `parseQuickCommand` (the spec's Call Descriptor before
alias resolution).  The source's `alias` field is named `walletAlias` because
`alias` is a reserved word in this development's environment. -/
structure ParsedQuick where
  walletAlias : String
  contractAddress : String
  methodSignature : String
  args : List String
  rpcUrl : Option String
  gasLimit : Option String
  gasPrice : Option String
  value : Option String
deriving DecidableEq

/-- Accumulator of the option/argument scanning loop of `parseQuickCommand`. -/
structure ScanSt where
  args : List String
  rpcUrl : Option String
  gasLimit : Option String
  gasPrice : Option String
  value : Option String
deriving DecidableEq

/-- `s.startsWith pre` of JS, on character lists. -/
def strStartsWith (s pre : String) : Bool :=
  List.isPrefixOf pre.data s.data

/-- JS `s.length` (character count on BMP text). -/
def strLength (s : String) : Nat :=
  s.data.length

/-- The loop over `remainingParts` of `parseQuickCommand`: a recognized flag
token followed by a value consumes both; any other token is appended to the
positional arguments unless it starts with `--` (in which case the source's
chain of conditions leaves it entirely unconsumed and unrecorded).  The
one-element case is the source's `i + 1 < remainingParts.length` guard
failing on the final token. -/
def scanRemaining : List String → ScanSt → ScanSt
  | [], st => st
  | [p], st =>
    if strStartsWith p "--" = false then { st with args := st.args ++ [p] } else st
  | p :: q :: rest, st =>
    if p = "--rpc-url" then scanRemaining rest { st with rpcUrl := some q }
    else if p = "--gas-limit" then scanRemaining rest { st with gasLimit := some q }
    else if p = "--gas-price" then scanRemaining rest { st with gasPrice := some q }
    else if p = "--value" then scanRemaining rest { st with value := some q }
    else if strStartsWith p "--" = false then
      scanRemaining (q :: rest) { st with args := st.args ++ [p] }
    else scanRemaining (q :: rest) st

/-- The flag tokens recognized by `parseQuickCommand`. -/
def recognizedFlags : List String :=
  ["--rpc-url", "--gas-limit", "--gas-price", "--value"]

/-- `WalletManager.parseQuickCommand`: tokenize the expanded command and build
the structured invocation.  Note that the `parts.length < 4` check of the
source runs before the leading `call` / `send` verb is discarded. -/
def parseQuickCommand (command : String) : Except WMError ParsedQuick :=
  let parts := parseCommandLine command
  if parts.length < 4 then Except.error WMError.malformedInvocation
  else
    let startIndex := if parts.getD 0 "" = "call" ∨ parts.getD 0 "" = "send" then 1 else 0
    let st := scanRemaining (parts.drop (startIndex + 3)) ⟨[], none, none, none, none⟩
    Except.ok
      { walletAlias := parts.getD startIndex ""
        contractAddress := parts.getD (startIndex + 1) ""
        methodSignature := parts.getD (startIndex + 2) ""
        args := st.args
        rpcUrl := st.rpcUrl
        gasLimit := st.gasLimit
        gasPrice := st.gasPrice
        value := st.value }

/-- Discard a leading `call` / `send` verb (the claim's notion of the
remaining tokens; the source itself only shifts its start index). -/
def dropVerb : List String → List String
  | [] => []
  | t :: ts => if t = "call" ∨ t = "send" then ts else t :: ts

/-! ### Template expansion: `QuickCommandManager.executeQuickCommand`
(wallet-manager.ts 655-673) -/

/-- Core of JS `String.replace(new RegExp(escapedPattern, 'g'), value)` for a
pattern that is a plain escaped literal (here always `\$` followed by a
parameter name): replace each leftmost non-overlapping occurrence of the
literal pattern, inserting the replacement verbatim.  `skip` counts pattern
characters still to be consumed after a match, making the recursion
structural.  (Replacement values containing JS `$&`-style escapes are outside
the model; the parameter names produced by the repository are identifier
strings, which are regex-literal.) -/
def replSkip (p0 : Char) (pr rep : List Char) : Nat → List Char → List Char
  | _, [] => []
  | Nat.succ n, _ :: cs => replSkip p0 pr rep n cs
  | 0, c :: cs =>
    if List.isPrefixOf (p0 :: pr) (c :: cs) then
      rep ++ replSkip p0 pr rep pr.length cs
    else c :: replSkip p0 pr rep 0 cs

/-- Global literal replacement on strings (see `replSkip`). -/
def replaceStr (s pat rep : String) : String :=
  match pat.data with
  | [] => s
  | p0 :: pr => String.mk (replSkip p0 pr rep.data 0 s.data)

/-- The `command.parameters.forEach((param, index) => ...)` substitution loop:
one global replacement pass per parameter, sequentially over the evolving
result string. -/
def substituteParams (template : String) (params args : List String) : String :=
  (params.zip args).foldl (fun res pv => replaceStr res ("$" ++ pv.1) pv.2) template

/-- A stored quick-command template (types.ts `QuickCommand`, timestamps
omitted). -/
structure QuickCommand where
  name : String
  parameters : List String
  template : String
  description : Option String
deriving DecidableEq

/-- The persisted quick-commands document (types.ts `QuickCommandsFile`,
versioning and timestamps omitted). -/
structure QuickCommandsFile where
  commands : List (String × QuickCommand)
deriving DecidableEq

/-- JS object read `m[k]`. -/
def objGet {α : Type} : List (String × α) → String → Option α
  | [], _ => none
  | (k, v) :: rest, key => if k = key then some v else objGet rest key

/-- JS object write `m[k] = v`: replaces in place if the key exists, appends
otherwise. -/
def objSet {α : Type} : List (String × α) → String → α → List (String × α)
  | [], key, v => [(key, v)]
  | (k, w) :: rest, key, v =>
    if k = key then (key, v) :: rest else (k, w) :: objSet rest key v

/-- `QuickCommandManager.getQuickCommand`. -/
def getQuickCommand (doc : QuickCommandsFile) (name : String) : Option QuickCommand :=
  objGet doc.commands name

/-- `QuickCommandManager.addQuickCommand` (wallet-manager.ts 618-631): writes
the entry unconditionally — there is no duplicate-key check. -/
def addQuickCommand (doc : QuickCommandsFile) (name : String) (parameters : List String)
    (template : String) (description : Option String) : QuickCommandsFile :=
  { commands := objSet doc.commands name ⟨name, parameters, template, description⟩ }

/-- `QuickCommandManager.executeQuickCommand` (wallet-manager.ts 655-673):
look the template up, check arity, then substitute parameters. -/
def executeQuickCommand (doc : QuickCommandsFile) (name : String) (args : List String) :
    Except WMError String :=
  match getQuickCommand doc name with
  | none => Except.error WMError.notFoundError
  | some cmd =>
    if args.length ≠ cmd.parameters.length then Except.error WMError.arityError
    else Except.ok (substituteParams cmd.template cmd.parameters args)

/-! ### Parameter detection: `QuickCommandManager.parseParametersFromTemplate`
(wallet-manager.ts 675-690) -/

/-- First character class of the placeholder regex `[a-zA-Z_]`. -/
def isIdentStart (c : Char) : Bool :=
  ('a' ≤ c ∧ c ≤ 'z') ∨ ('A' ≤ c ∧ c ≤ 'Z') ∨ c = '_'

/-- Continuation character class of the placeholder regex `[a-zA-Z0-9_]`. -/
def isIdentChar (c : Char) : Bool :=
  isIdentStart c ∨ ('0' ≤ c ∧ c ≤ '9')

/-- Scanner state compiling the `/\$([a-zA-Z_][a-zA-Z0-9_]*)/g` exec loop:
either in plain text, just after an unconsumed `$`, or inside the identifier
of a placeholder being matched. -/
inductive PHState where
  | normal
  | afterSigil
  | inIdent (run : List Char)
deriving DecidableEq

/-- One left-to-right pass listing every placeholder-identifier match of the
regex, in order, with duplicates. -/
def scanPH : List Char → PHState → List (List Char)
  | [], st =>
    match st with
    | PHState.inIdent run => [run]
    | _ => []
  | c :: cs, PHState.normal =>
    if c = '$' then scanPH cs PHState.afterSigil else scanPH cs PHState.normal
  | c :: cs, PHState.afterSigil =>
    if isIdentStart c then scanPH cs (PHState.inIdent [c])
    else if c = '$' then scanPH cs PHState.afterSigil
    else scanPH cs PHState.normal
  | c :: cs, PHState.inIdent run =>
    if isIdentChar c then scanPH cs (PHState.inIdent (run ++ [c]))
    else if c = '$' then run :: scanPH cs PHState.afterSigil
    else run :: scanPH cs PHState.normal

/-- The `seen`-set filter of the exec loop: keep the first occurrence of each
identifier. -/
def dedupFirst (seen : List String) : List String → List String
  | [] => []
  | p :: rest =>
    if p ∈ seen then dedupFirst seen rest else p :: dedupFirst (p :: seen) rest

/-- `QuickCommandManager.parseParametersFromTemplate`: all distinct
placeholder identifiers of a template body, in first-occurrence order. -/
def parseParametersFromTemplate (template : String) : List String :=
  dedupFirst [] ((scanPH template.data PHState.normal).map String.mk)

/-- Specification-side predicate: `l2` does not begin with an identifier
character, i.e. an identifier run ending right before `l2` is maximal. -/
def boundaryAfter : List Char → Bool
  | [] => true
  | c :: _ => !isIdentChar c

/-- Specification-side predicate on character lists: a placeholder identifier
(`[a-zA-Z_]` followed by `[a-zA-Z0-9_]*`). -/
def identList : List Char → Bool
  | [] => false
  | c :: cs => isIdentStart c && cs.all isIdentChar

/-- Specification-side predicate: `x` is a placeholder identifier. -/
def isIdentStr (x : String) : Bool :=
  identList x.data

/-- Specification-side occurrence predicate on character lists: `x` occurs in
`l` as a placeholder, i.e. immediately after a `$` and maximal to the right. -/
def occursN (l x : List Char) : Prop :=
  identList x = true ∧ ∃ l1 l2, l = l1 ++ '$' :: (x ++ l2) ∧ boundaryAfter l2 = true

/-- `occursN` as seen from the just-after-a-`$` scanner state. -/
def occursA (l x : List Char) : Prop :=
  (identList x = true ∧ ∃ l2, l = x ++ l2 ∧ boundaryAfter l2 = true) ∨
  occursN l x

/-- `occursN` as seen from inside a partially matched identifier `run`. -/
def occursI (run l x : List Char) : Prop :=
  (∃ e l2, l = e ++ l2 ∧ e.all isIdentChar = true ∧ boundaryAfter l2 = true ∧
      x = run ++ e) ∨
  occursN l x

/-- Specification-side occurrence predicate on strings. -/
def occursPH (t x : String) : Prop :=
  occursN t.data x.data

/-- Specification-side `substring occurs` test, for stating which text a
replacement pass leaves untouched. -/
def containsSeq (pat : List Char) : List Char → Bool
  | [] => List.isPrefixOf pat []
  | c :: cs => List.isPrefixOf pat (c :: cs) || containsSeq pat cs

/-! ### Alias registry: `ContractManager` (contract-manager.ts) -/

/-- A stored contract entry (types.ts `ContractInfo`; timestamps and `abi`
omitted).  The source's `alias` field is named `aliasKey` here. -/
structure ContractInfo where
  aliasKey : String
  address : String
  name : Option String
  description : Option String
  network : Option String
deriving DecidableEq

/-- The optional metadata argument of `addContract` (`abi` omitted). -/
structure ContractMeta where
  name : Option String
  description : Option String
  network : Option String
deriving DecidableEq

/-- The persisted contracts document (types.ts `ContractsFile`, versioning and
timestamps omitted). -/
structure ContractsFile where
  contracts : List (String × ContractInfo)
deriving DecidableEq

/-- The entry constructed by `addContract`. -/
def mkContractEntry (key address : String) (meta : ContractMeta) : ContractInfo :=
  ⟨key, address, meta.name, meta.description, meta.network⟩

/-- `ContractManager.addContract` (contract-manager.ts 58-87): validate the
address format (`startsWith('0x') && length === 42` — the 40 characters after
the prefix are not checked further), then write the entry unconditionally —
there is no duplicate-key check.  An error models the throw happening before
any write. -/
def addContract (doc : ContractsFile) (key address : String) (meta : ContractMeta) :
    Except WMError ContractsFile :=
  if ¬ (strStartsWith address "0x" = true ∧ strLength address = 42) then
    Except.error WMError.validationError
  else
    Except.ok { contracts := objSet doc.contracts key (mkContractEntry key address meta) }

/-- The partial-update argument of `updateContract`. -/
structure ContractUpdates where
  address : Option String
  name : Option String
  description : Option String
  network : Option String
deriving DecidableEq

/-- JS truthiness of an optional string (`undefined` and `''` are falsy). -/
def jsTruthy : Option String → Bool
  | none => false
  | some s => s ≠ ""

/-- The `{...contract, ...updates}` spread of `updateContract`. -/
def mergeUpdates (c : ContractInfo) (u : ContractUpdates) : ContractInfo :=
  { aliasKey := c.aliasKey
    address := u.address.getD c.address
    name := match u.name with | some n => some n | none => c.name
    description := match u.description with | some d => some d | none => c.description
    network := match u.network with | some n => some n | none => c.network }

/-- `ContractManager.updateContract` (contract-manager.ts 121-151): returns
`false` if the alias is absent; validates the address only when it is truthy
(so an empty-string address skips validation); merges and writes. -/
def updateContract (doc : ContractsFile) (key : String) (u : ContractUpdates) :
    Except WMError (Bool × ContractsFile) :=
  match objGet doc.contracts key with
  | none => Except.ok (false, doc)
  | some c =>
    if jsTruthy u.address = true ∧
        ¬ (strStartsWith (u.address.getD "") "0x" = true ∧ strLength (u.address.getD "") = 42) then
      Except.error WMError.validationError
    else
      Except.ok (true, { contracts := objSet doc.contracts key (mergeUpdates c u) })

/-- Specification-side hexadecimal digit test. -/
def isHexDigit (c : Char) : Bool :=
  ('0' ≤ c ∧ c ≤ '9') ∨ ('a' ≤ c ∧ c ≤ 'f') ∨ ('A' ≤ c ∧ c ≤ 'F')

/-- Specification-side address well-formedness: `0x` followed by exactly 40
hexadecimal characters. -/
def isHexAddress (a : String) : Bool :=
  match a.data with
  | '0' :: 'x' :: rest => rest.length = 40 ∧ rest.all isHexDigit
  | _ => false

/-! ### Concrete fixtures used by counterexamples and witnesses -/

/-- `0x` followed by 40 `a`: a well-formed address. -/
def addrA : String := String.mk ('0' :: 'x' :: List.replicate 40 'a')

/-- `0x` followed by 40 `b`: a well-formed address. -/
def addrB : String := String.mk ('0' :: 'x' :: List.replicate 40 'b')

/-- `0x` followed by 40 `z`: right prefix and length but not hexadecimal. -/
def addrZ : String := String.mk ('0' :: 'x' :: List.replicate 40 'z')

/-- A contracts document with one entry under `"t"`. -/
def docT : ContractsFile :=
  ⟨[("t", mkContractEntry "t" addrA ⟨none, none, none⟩)]⟩

/-- A quick-commands document with one template under `"q"`. -/
def docQ : QuickCommandsFile :=
  ⟨[("q", ⟨"q", ["a"], "$a", none⟩)]⟩

/-- A quick-commands document with the `amount` / `amountMax` template of the
boundary-anchoring claim. -/
def docAmt : QuickCommandsFile :=
  ⟨[("m", ⟨"m", ["amount", "amountMax"], "$amount $amountMax", none⟩)]⟩

/-- A quick-commands document whose first argument value contains the second
parameter's placeholder. -/
def docAB : QuickCommandsFile :=
  ⟨[("m", ⟨"m", ["a", "b"], "$a $b", none⟩)]⟩

/-! ## Helper lemmas -/

theorem objGet_objSet_self {α : Type} (m : List (String × α)) (k : String) (v : α) :
    objGet (objSet m k v) k = some v := by
  induction m with
  | nil => simp [objGet, objSet]
  | cons p rest ih =>
    obtain ⟨k1, v1⟩ := p
    by_cases h : k1 = k
    · simp [objSet, h, objGet]
    · simp [objSet, h, objGet, ih]

theorem isPrefixOf_append_self (xs ys : List Char) :
    List.isPrefixOf xs (xs ++ ys) = true := by
  induction xs with
  | nil => simp [List.isPrefixOf]
  | cons x xs ih => simp [List.isPrefixOf, ih]

/-- Skipping `n` characters emits nothing and resumes the scan at the
`n`-dropped suffix. -/
theorem replSkip_skip (p0 : Char) (pr rep : List Char) (l : List Char) :
    ∀ n, replSkip p0 pr rep n l = replSkip p0 pr rep 0 (List.drop n l) := by
  induction l with
  | nil => intro n; cases n <;> simp [replSkip]
  | cons c cs ih =>
    intro n
    cases n with
    | zero => simp
    | succ m => simpa [replSkip] using ih m

/-- A replacement pass leaves text containing no occurrence of the pattern
untouched. -/
theorem replSkip_no_occurrence (p0 : Char) (pr rep : List Char) :
    ∀ l, containsSeq (p0 :: pr) l = false → replSkip p0 pr rep 0 l = l := by
  intro l
  induction l with
  | nil => intro _; simp [replSkip]
  | cons c cs ih =>
    intro h
    rw [containsSeq, Bool.or_eq_false_iff] at h
    rw [replSkip, if_neg (by simp [h.1]), ih h.2]

/-- A replacement pass rewrites the leftmost occurrence of the pattern and
inserts the replacement verbatim, then continues after the occurrence. -/
theorem replSkip_leftmost (p0 : Char) (pr rep : List Char) :
    ∀ (l1 l2 : List Char),
      (∀ i, i < l1.length →
        List.isPrefixOf (p0 :: pr) (List.drop i (l1 ++ (p0 :: pr) ++ l2)) = false) →
      replSkip p0 pr rep 0 (l1 ++ (p0 :: pr) ++ l2) =
        l1 ++ rep ++ replSkip p0 pr rep 0 l2 := by
  intro l1
  induction l1 with
  | nil =>
    intro l2 _
    rw [List.nil_append, List.cons_append, replSkip,
      if_pos (by simp [isPrefixOf_append_self (p0 :: pr) l2]), replSkip_skip]
    simp [List.drop_left]
  | cons c l1 ih =>
    intro l2 h
    have h0 := h 0 (by simp)
    simp only [List.drop_zero, List.cons_append] at h0
    simp only [List.cons_append]
    rw [replSkip, if_neg (by rw [h0]; decide)]
    have hrec := ih l2 (fun i hi => by
      have hx := h (i + 1) (by simp only [List.length_cons]; omega)
      simpa only [List.cons_append, List.drop_succ_cons] using hx)
    rw [hrec]

/-- Invariant of the tokenizer loop: no empty token is ever pushed. -/
theorem foldl_tokStep_no_nil (l : List Char) :
    ∀ st : TokSt, [] ∉ st.args → [] ∉ finishTok (l.foldl tokStep st) := by
  induction l with
  | nil =>
    intro st h
    unfold finishTok
    split
    · rename_i hcur
      intro hmem
      rcases List.mem_append.mp hmem with h1 | h2
      · exact h h1
      · rw [List.mem_singleton] at h2
        exact hcur h2.symm
    · exact h
  | cons c cs ih =>
    intro st h
    rw [List.foldl_cons]
    apply ih
    unfold tokStep
    split
    · exact h
    split
    · exact h
    split
    · split
      · rename_i hcur
        intro hmem
        rcases List.mem_append.mp hmem with h1 | h2
        · exact h h1
        · rw [List.mem_singleton] at h2
          exact hcur h2.symm
      · exact h
    · exact h

/-! ## Claim C1: identifier-boundary anchoring of placeholder substitution -/

/-- C1, counterexample.  The claim states that substituting `$amount` never
rewrites any part of an occurrence of `$amountMax`, so the template
`"$amount $amountMax"` with arguments `["1", "2"]` would have to expand to
`"1 2"`.  The source's unanchored global replacement instead rewrites the
`$amount` prefix of `$amountMax`, producing `"1 1Max"`. -/
theorem C1_counterexample :
    executeQuickCommand docAmt "m" ["1", "2"] = Except.ok "1 1Max" ∧
    ("1 1Max" == "1 2") = false := ⟨by decide, by decide⟩

/-- C1 (amended): expansion substitutes each parameter in sequence by plain
leftmost non-overlapping literal replacement of the character sequence `$p`,
with no identifier-boundary anchoring: text containing no occurrence of the
literal pattern is untouched, the replacement value is inserted verbatim at
each occurrence, and `$amount` does rewrite the `$amount` prefix of
`$amountMax`, so the template of the claim expands to `"1 1Max"`. -/
theorem C1_amended :
    (∀ (p0 : Char) (pr rep l : List Char),
      containsSeq (p0 :: pr) l = false → replSkip p0 pr rep 0 l = l) ∧
    (∀ (p0 : Char) (pr rep l1 l2 : List Char),
      (∀ i, i < l1.length →
        List.isPrefixOf (p0 :: pr) (List.drop i (l1 ++ (p0 :: pr) ++ l2)) = false) →
      replSkip p0 pr rep 0 (l1 ++ (p0 :: pr) ++ l2) = l1 ++ rep ++ replSkip p0 pr rep 0 l2) ∧
    substituteParams "$amount $amountMax" ["amount", "amountMax"] ["1", "2"] = "1 1Max" ∧
    replaceStr "$amountMax" "$amount" "1" = "1Max" :=
  ⟨fun p0 pr rep l h => replSkip_no_occurrence p0 pr rep l h,
   fun p0 pr rep l1 l2 h => replSkip_leftmost p0 pr rep l1 l2 h,
   by decide, by decide⟩

/-- C1, witness for the amended theorem's hypotheses at concrete inputs. -/
theorem C1_amended_witness :
    replSkip '$' ['a'] ['X'] 0 ['q', 'b'] = ['q', 'b'] ∧
    replSkip '$' ['a'] ['X'] 0 (['q', ' '] ++ ('$' :: ['a']) ++ ['z']) =
      ['q', ' '] ++ ['X'] ++ replSkip '$' ['a'] ['X'] 0 ['z'] :=
  ⟨C1_amended.1 '$' ['a'] ['X'] ['q', 'b'] (by decide),
   C1_amended.2.1 '$' ['a'] ['X'] ['q', ' '] ['z'] (by decide)⟩

/-! ## Claim C2: single substitution pass / inserted values never rescanned -/

/-- C2, counterexample.  The claim states that an argument value containing
the text `$` + name of another parameter survives expansion unchanged, so
expanding `"$a $b"` with arguments `["$b", "X"]` would have to produce
`"$b X"`.  The source substitutes parameters sequentially, each pass scanning
the whole intermediate string, so the inserted `$b` is rewritten by the later
pass, producing `"X X"`. -/
theorem C2_counterexample :
    executeQuickCommand docAB "m" ["$b", "X"] = Except.ok "X X" ∧
    ("X X" == "$b X") = false := ⟨by decide, by decide⟩

/-- C2 (amended): expansion performs one global replacement pass per
parameter, sequentially in parameter-list order, each pass scanning the whole
intermediate string (including previously inserted values).  Within a single
pass an inserted value is not rescanned, so a value containing its own
placeholder survives that pass; but a value containing a later parameter's
placeholder is rewritten by the later pass (`["$b", "X"]` on `"$a $b"` yields
`"X X"`). -/
theorem C2_amended :
    (∀ (t p v : String) (ps vs : List String),
      substituteParams t (p :: ps) (v :: vs) =
        substituteParams (replaceStr t ("$" ++ p) v) ps vs) ∧
    (∀ pd : List Char, replSkip '$' pd ('$' :: pd) 0 ('$' :: pd) = '$' :: pd) ∧
    substituteParams "$a" ["a"] ["$a"] = "$a" ∧
    substituteParams "$a $b" ["a", "b"] ["$b", "X"] = "X X" := by
  refine ⟨fun t p v ps vs => rfl, ?_, by decide, by decide⟩
  intro pd
  rw [replSkip, if_pos (by simp [isPrefixOf_append_self ('$' :: pd) []]), replSkip_skip]
  simp [List.drop_length, replSkip]

/-! ## Claim C3: rejection of duplicate keys on add -/

/-- C3, counterexample.  Both registries already hold an entry under the key
being added; the claim states the add must fail with a `DuplicateError` and
leave the entry unmodified.  Both adds instead succeed and replace the
entry. -/
theorem C3_counterexample :
    objGet docT.contracts "t" = some (mkContractEntry "t" addrA ⟨none, none, none⟩) ∧
    addContract docT "t" addrB ⟨none, none, none⟩ =
      Except.ok ⟨[("t", mkContractEntry "t" addrB ⟨none, none, none⟩)]⟩ ∧
    (mkContractEntry "t" addrB ⟨none, none, none⟩ ==
      mkContractEntry "t" addrA ⟨none, none, none⟩) = false ∧
    objGet docQ.commands "q" = some ⟨"q", ["a"], "$a", none⟩ ∧
    addQuickCommand docQ "q" ["b"] "$b" none = ⟨[("q", ⟨"q", ["b"], "$b", none⟩)]⟩ ∧
    ((⟨"q", ["b"], "$b", none⟩ : QuickCommand) == ⟨"q", ["a"], "$a", none⟩) = false :=
  ⟨by decide, by decide, by decide, by decide, by decide, by decide⟩

/-- C3 (amended): neither `ContractManager.addContract` nor
`QuickCommandManager.addQuickCommand` performs a duplicate-key check: adding
under a key (whether present or not) writes the newly constructed entry under
that key, replacing any existing one; `addContract` can only fail with the
address-format `ValidationError`, never with a `DuplicateError`, and
`addQuickCommand` cannot fail at all.  (Duplicate rejection for contract
aliases exists only in the CLI layer above `addContract`.) -/
theorem C3_amended :
    (∀ (doc : ContractsFile) (k a : String) (m : ContractMeta),
      strStartsWith a "0x" = true → strLength a = 42 →
        addContract doc k a m = Except.ok ⟨objSet doc.contracts k (mkContractEntry k a m)⟩ ∧
        objGet (objSet doc.contracts k (mkContractEntry k a m)) k =
          some (mkContractEntry k a m)) ∧
    (∀ (doc : ContractsFile) (k a : String) (m : ContractMeta),
      addContract doc k a m = Except.error WMError.validationError ∨
      addContract doc k a m =
        Except.ok ⟨objSet doc.contracts k (mkContractEntry k a m)⟩) ∧
    (∀ (qdoc : QuickCommandsFile) (k : String) (ps : List String) (t : String)
        (d : Option String),
      objGet (addQuickCommand qdoc k ps t d).commands k = some ⟨k, ps, t, d⟩) := by
  refine ⟨?_, ?_, ?_⟩
  · intro doc k a m h1 h2
    refine ⟨?_, objGet_objSet_self _ _ _⟩
    rw [addContract, if_neg (by simp [h1, h2])]
  · intro doc k a m
    unfold addContract
    split
    · exact Or.inl rfl
    · exact Or.inr rfl
  · intro qdoc k ps t d
    exact objGet_objSet_self _ _ _

/-- C3, witness for the amended theorem's hypotheses at concrete inputs. -/
theorem C3_amended_witness :
    addContract docT "t" addrB ⟨none, none, none⟩ =
      Except.ok ⟨objSet docT.contracts "t" (mkContractEntry "t" addrB ⟨none, none, none⟩)⟩ ∧
    objGet (objSet docT.contracts "t" (mkContractEntry "t" addrB ⟨none, none, none⟩)) "t" =
      some (mkContractEntry "t" addrB ⟨none, none, none⟩) :=
  C3_amended.1 docT "t" addrB ⟨none, none, none⟩ (by decide) (by decide)

/-! ## Claim C7: address format validation -/

/-- C7, counterexample.  `0x` followed by 40 `z` is not of the hexadecimal
form the claim requires validation to enforce, yet `addContract` accepts it:
the source checks only the `0x` prefix and the total length of 42. -/
theorem C7_counterexample :
    isHexAddress addrZ = false ∧
    addContract ⟨[]⟩ "t" addrZ ⟨none, none, none⟩ =
      Except.ok ⟨[("t", mkContractEntry "t" addrZ ⟨none, none, none⟩)]⟩ :=
  ⟨by decide, by decide⟩

/-- C7 (amended): `addContract` rejects with a `ValidationError` exactly those
addresses that fail the check `startsWith "0x" && length = 42`; the 40
characters after the prefix are not required to be hexadecimal.  Every string
of the exact `0x` + 40-hex-digit form passes the check (and is therefore
accepted); rejection happens before any write (the error carries no updated
document).  `updateContract` applies the same check to a provided nonempty
address. -/
theorem C7_amended :
    (∀ (doc : ContractsFile) (k a : String) (m : ContractMeta),
      addContract doc k a m =
          Except.ok ⟨objSet doc.contracts k (mkContractEntry k a m)⟩ ∨
      addContract doc k a m = Except.error WMError.validationError) ∧
    (∀ (doc : ContractsFile) (k a : String) (m : ContractMeta),
      addContract doc k a m = Except.error WMError.validationError ↔
        ¬ (strStartsWith a "0x" = true ∧ strLength a = 42)) ∧
    (∀ a, isHexAddress a = true → strStartsWith a "0x" = true ∧ strLength a = 42) ∧
    (∀ (doc : ContractsFile) (k : String) (u : ContractUpdates) (c : ContractInfo),
      objGet doc.contracts k = some c →
      jsTruthy u.address = true →
      strStartsWith (u.address.getD "") "0x" = false →
        updateContract doc k u = Except.error WMError.validationError) := by
  refine ⟨?_, ?_, ?_, ?_⟩
  · intro doc k a m
    unfold addContract
    split
    · exact Or.inr rfl
    · exact Or.inl rfl
  · intro doc k a m
    unfold addContract
    split
    · rename_i h
      simpa using h
    · rename_i h
      constructor
      · intro hc
        cases hc
      · intro hc
        exact absurd (not_not.mp h) hc
  · intro a ha
    unfold isHexAddress at ha
    split at ha
    · rename_i rest heq
      simp only [Bool.and_eq_true, decide_eq_true_eq] at ha
      constructor
      · simp [strStartsWith, heq, List.isPrefixOf]
      · simp [strLength, heq, ha.1]
    · cases ha
  · intro doc k u c hget htr hpre
    simp [updateContract, hget, htr, hpre]

/-- C7, witness for the amended theorem's hypotheses at concrete inputs. -/
theorem C7_amended_witness :
    (strStartsWith addrA "0x" = true ∧ strLength addrA = 42) ∧
    updateContract docT "t" ⟨some "nope", none, none, none⟩ =
      Except.error WMError.validationError :=
  ⟨C7_amended.2.2.1 addrA (by decide),
   C7_amended.2.2.2 docT "t" ⟨some "nope", none, none, none⟩
     (mkContractEntry "t" addrA ⟨none, none, none⟩) (by decide) (by decide) (by decide)⟩

/-! ## Claim C4: minimum token count of reconstruction -/

/-- C4, counterexample.  The claim states that any token sequence with at
least 3 tokens remaining after discarding an optional leading verb is
accepted, and in particular that a verbless 3-token sequence is accepted.
The source checks `parts.length < 4` before discarding the verb, so the
verbless 3-token input `"a b c"` is rejected. -/
theorem C4_counterexample :
    parseQuickCommand "a b c" = Except.error WMError.malformedInvocation ∧
    parseCommandLine "a b c" = ["a", "b", "c"] ∧
    dropVerb (parseCommandLine "a b c") = ["a", "b", "c"] ∧
    (dropVerb (parseCommandLine "a b c")).length = 3 :=
  ⟨by decide, by decide, by decide, by decide⟩

/-- C4 (amended): reconstruction fails with `MalformedInvocationError` exactly
when the full token sequence — before any verb discarding — has fewer than 4
tokens; on success, the first three tokens remaining after discarding a
leading `call`/`send` verb bind `signerAlias`, `contractReference` and
`methodSignature`.  Consequently with a leading verb at least 3 remaining
tokens are accepted, but a verbless sequence of exactly 3 tokens is
rejected. -/
theorem C4_amended (command : String) :
    (parseQuickCommand command = Except.error WMError.malformedInvocation ↔
      (parseCommandLine command).length < 4) ∧
    (∀ p : ParsedQuick, parseQuickCommand command = Except.ok p →
      3 ≤ (dropVerb (parseCommandLine command)).length ∧
      p.walletAlias = (dropVerb (parseCommandLine command)).getD 0 "" ∧
      p.contractAddress = (dropVerb (parseCommandLine command)).getD 1 "" ∧
      p.methodSignature = (dropVerb (parseCommandLine command)).getD 2 "") := by
  by_cases hlen : (parseCommandLine command).length < 4
  · constructor
    · simp [parseQuickCommand, hlen]
    · intro p hp
      simp [parseQuickCommand, hlen] at hp
  · constructor
    · simp [parseQuickCommand, hlen]
    · intro p hp
      simp only [parseQuickCommand, if_neg hlen, Except.ok.injEq] at hp
      obtain ⟨t, rest⟩ : ∃ t rest, parseCommandLine command = t :: rest := by
        cases h : parseCommandLine command with
        | nil => rw [h] at hlen; simp at hlen
        | cons t rest => exact ⟨t, rest, rfl⟩
      obtain ⟨rest, hparts⟩ := rest
      rw [hparts] at hlen hp ⊢
      by_cases hverb : t = "call" ∨ t = "send"
      · have hidx : ((if (t :: rest).getD 0 "" = "call" ∨ (t :: rest).getD 0 "" = "send"
            then 1 else 0) : Nat) = 1 := by
          simp [hverb]
        rw [hidx] at hp
        subst hp
        simp only [dropVerb, if_pos hverb]
        refine ⟨by simp at hlen ⊢; omega, ?_, ?_, ?_⟩ <;> simp
      · have hidx : ((if (t :: rest).getD 0 "" = "call" ∨ (t :: rest).getD 0 "" = "send"
            then 1 else 0) : Nat) = 0 := by
          simp only [List.getD_cons_zero]
          simp [hverb]
        rw [hidx] at hp
        subst hp
        simp only [dropVerb, if_neg hverb]
        refine ⟨by simp at hlen ⊢; omega, ?_, ?_, ?_⟩ <;> simp

/-- C4, witness for the amended theorem's hypotheses at a concrete input. -/
theorem C4_amended_witness :
    3 ≤ (dropVerb (parseCommandLine "call w c m")).length ∧
    (⟨"w", "c", "m", [], none, none, none, none⟩ : ParsedQuick).walletAlias =
      (dropVerb (parseCommandLine "call w c m")).getD 0 "" ∧
    (⟨"w", "c", "m", [], none, none, none, none⟩ : ParsedQuick).contractAddress =
      (dropVerb (parseCommandLine "call w c m")).getD 1 "" ∧
    (⟨"w", "c", "m", [], none, none, none, none⟩ : ParsedQuick).methodSignature =
      (dropVerb (parseCommandLine "call w c m")).getD 2 "" :=
  (C4_amended "call w c m").2 ⟨"w", "c", "m", [], none, none, none, none⟩ (by decide)

/-! ## Claim C5: flag token with no following value -/

/-- C5, counterexample.  The claim states that a recognized flag token
occurring as the final remaining token, with no value after it, makes
reconstruction fail with `MalformedInvocationError`.  The source instead
silently drops the flag and succeeds. -/
theorem C5_counterexample :
    parseQuickCommand "call w c m --rpc-url" =
      Except.ok ⟨"w", "c", "m", [], none, none, none, none⟩ ∧
    ((Except.ok ⟨"w", "c", "m", [], none, none, none, none⟩ : Except WMError ParsedQuick) ==
      Except.error WMError.malformedInvocation) = false :=
  ⟨by decide, by decide⟩

/-- C5 (amended): once the 4-token minimum is met, reconstruction always
succeeds — it has no failure path in the option-scanning loop; a recognized
flag reaching the scanner as the sole remaining token is silently discarded
(it consumes nothing, sets no option and is not added to the positional
arguments), as on the concrete input of the claim. -/
theorem C5_amended :
    (∀ command : String, 4 ≤ (parseCommandLine command).length →
      ∃ p : ParsedQuick, parseQuickCommand command = Except.ok p) ∧
    (∀ (f : String) (st : ScanSt), f ∈ recognizedFlags → scanRemaining [f] st = st) ∧
    parseQuickCommand "call w c m --rpc-url" =
      Except.ok ⟨"w", "c", "m", [], none, none, none, none⟩ := by
  refine ⟨?_, ?_, by decide⟩
  · intro command h
    simp only [parseQuickCommand]
    rw [if_neg (by omega)]
    exact ⟨_, rfl⟩
  · intro f st hf
    simp only [recognizedFlags, List.mem_cons, List.not_mem_nil, or_false] at hf
    rcases hf with rfl | rfl | rfl | rfl <;>
      · simp only [scanRemaining]
        rw [if_neg (by decide)]

/-- C5, witness for the amended theorem's hypotheses at concrete inputs. -/
theorem C5_amended_witness :
    (∃ p : ParsedQuick, parseQuickCommand "call w c m --rpc-url" = Except.ok p) ∧
    scanRemaining ["--rpc-url"] ⟨[], none, none, none, none⟩ = ⟨[], none, none, none, none⟩ :=
  ⟨C5_amended.1 "call w c m --rpc-url" (by decide),
   C5_amended.2.1 "--rpc-url" ⟨[], none, none, none, none⟩ (by decide)⟩

/-! ## Claim C6: unrecognized flag-like tokens -/

set_option maxRecDepth 10000 in
/-- C6, counterexample.  The claim states that an unrecognized flag-like
token such as `--wait` is forwarded untouched into the positional arguments,
predicting `positionalArgs = ["0xabc", "1000", "--wait"]` on the given input.
The source's scanning loop appends a token to the positional arguments only
when it does not start with `--`, so `--wait` is silently dropped. -/
theorem C6_counterexample :
    parseQuickCommand
        "call my-wallet token-alias \"transfer(address,uint256)\" 0xabc 1000 --rpc-url http://x --wait" =
      Except.ok ⟨"my-wallet", "token-alias", "transfer(address,uint256)", ["0xabc", "1000"],
        some "http://x", none, none, none⟩ ∧
    ((["0xabc", "1000"] : List String) == ["0xabc", "1000", "--wait"]) = false :=
  ⟨by decide, by decide⟩

set_option maxRecDepth 10000 in
/-- C6 (amended): a flag-like token (starting with `--`) that is not in the
enumerated option set is silently discarded by the scanning loop — it is not
added to the positional arguments and consumes no following token — while
`--rpc-url http://x` is consumed as an option pair; on the claim's concrete
input the result therefore has `positionalArgs = ["0xabc", "1000"]` and
`options.rpcUrl = "http://x"`. -/
theorem C6_amended :
    (∀ (p : String) (rest : List String) (st : ScanSt),
      strStartsWith p "--" = true → p ∉ recognizedFlags →
        scanRemaining (p :: rest) st = scanRemaining rest st) ∧
    parseQuickCommand
        "call my-wallet token-alias \"transfer(address,uint256)\" 0xabc 1000 --rpc-url http://x --wait" =
      Except.ok ⟨"my-wallet", "token-alias", "transfer(address,uint256)", ["0xabc", "1000"],
        some "http://x", none, none, none⟩ := by
  refine ⟨?_, by decide⟩
  intro p rest st hs hn
  simp only [recognizedFlags, List.mem_cons, List.not_mem_nil, or_false, not_or] at hn
  obtain ⟨h1, h2, h3, h4⟩ := hn
  cases rest with
  | nil =>
    simp only [scanRemaining]
    rw [if_neg (by simp [hs])]
  | cons q rest =>
    simp only [scanRemaining]
    rw [if_neg h1, if_neg h2, if_neg h3, if_neg h4, if_neg (by simp [hs])]

/-- C6, witness for the amended theorem's hypotheses at a concrete input. -/
theorem C6_amended_witness :
    scanRemaining ["--wait", "z"] ⟨[], none, none, none, none⟩ =
      scanRemaining ["z"] ⟨[], none, none, none, none⟩ :=
  C6_amended.1 "--wait" ["z"] ⟨[], none, none, none, none⟩ (by decide) (by decide)

/-! ## Claim C10: no empty tokens -/

/-- C10: the tokenizer never produces an empty-string token: an adjacent
quote pair standing alone between separators contributes no token, and input
consisting solely of separators yields the empty sequence. -/
theorem C10_no_empty_tokens :
    (∀ s : String, (parseCommandLine s).count "" = 0) ∧
    parseCommandLine "a \"\" b" = ["a", "b"] ∧
    parseCommandLine "   " = [] := by
  refine ⟨?_, by decide, by decide⟩
  intro s
  rw [List.count_eq_zero]
  unfold parseCommandLine
  intro hmem
  rcases List.mem_map.mp hmem with ⟨l, hl, hmk⟩
  have hnil : l = [] := by
    have := congrArg String.data hmk
    simpa using this
  subst hnil
  exact foldl_tokStep_no_nil s.data ⟨[], [], false, none⟩ (by simp) hl

/-! ## Claim C8: tokenization -/

theorem readToken_rest_le :
    ∀ (l acc : List Char) (q : Option Char), (readToken l acc q).2.length ≤ l.length := by
  intro l
  induction l with
  | nil => intro acc q; simp [readToken]
  | cons c cs ih =>
    intro acc q
    cases q with
    | some qc =>
      by_cases hc : c = qc
      · simp only [readToken, if_pos hc]
        exact le_trans (ih acc none) (by simp)
      · simp only [readToken, if_neg hc]
        exact le_trans (ih (acc ++ [c]) (some qc)) (by simp)
    | none =>
      by_cases hsp : c = ' '
      · simp [readToken, hsp]
      · by_cases hq : c = dquote ∨ c = squote
        · simp only [readToken, if_neg hsp, if_pos hq]
          exact le_trans (ih acc (some c)) (by simp)
        · simp only [readToken, if_neg hsp, if_neg hq]
          exact le_trans (ih (acc ++ [c]) none) (by simp)

theorem readToken_cons_rest_le (c : Char) (cs acc : List Char) (h : ¬ c = ' ') :
    (readToken (c :: cs) acc none).2.length ≤ cs.length := by
  by_cases hq : c = dquote ∨ c = squote
  · simp only [readToken, if_neg h, if_pos hq]
    exact readToken_rest_le cs acc (some c)
  · simp only [readToken, if_neg h, if_neg hq]
    exact readToken_rest_le cs (acc ++ [c]) none

/-- The fuel of `specTokensF` is irrelevant as long as it covers the input
length. -/
theorem specTokensF_congr :
    ∀ (f1 : Nat) (l : List Char) (f2 : Nat), l.length ≤ f1 → l.length ≤ f2 →
      specTokensF f1 l = specTokensF f2 l := by
  intro f1
  induction f1 with
  | zero =>
    intro l f2 h1 _
    have hl : l = [] := List.length_eq_zero.mp (Nat.le_zero.mp h1)
    subst hl
    cases f2 <;> simp [specTokensF]
  | succ g1 ih =>
    intro l f2 h1 h2
    cases l with
    | nil => cases f2 <;> simp [specTokensF]
    | cons c cs =>
      cases f2 with
      | zero => simp at h2
      | succ g2 =>
        simp only [specTokensF]
        by_cases hsp : c = ' '
        · rw [if_pos hsp, if_pos hsp]
          exact ih cs g2 (by simp at h1; omega) (by simp at h2; omega)
        · rw [if_neg hsp, if_neg hsp]
          have hrl := readToken_cons_rest_le c cs [] hsp
          have hg1 : (readToken (c :: cs) [] none).2.length ≤ g1 := by simp at h1; omega
          have hg2 : (readToken (c :: cs) [] none).2.length ≤ g2 := by simp at h2; omega
          rw [ih (readToken (c :: cs) [] none).2 g2 hg1 hg2]

theorem specTokens_cons_space (cs : List Char) : specTokens (' ' :: cs) = specTokens cs := by
  simp [specTokens, specTokensF]

theorem specTokens_cons (c : Char) (cs : List Char) (h : ¬ c = ' ') :
    specTokens (c :: cs) =
      (if (readToken (c :: cs) [] none).1 = [] then specTokens (readToken (c :: cs) [] none).2
       else (readToken (c :: cs) [] none).1 :: specTokens (readToken (c :: cs) [] none).2) := by
  have hrl := readToken_cons_rest_le c cs [] h
  simp only [specTokens, List.length_cons, specTokensF, if_neg h]
  have e : specTokensF cs.length (readToken (c :: cs) [] none).2 =
      specTokensF (readToken (c :: cs) [] none).2.length (readToken (c :: cs) [] none).2 :=
    specTokensF_congr cs.length _ _ hrl le_rfl
  by_cases hr1 : (readToken (c :: cs) [] none).1 = []
  · rw [if_pos hr1, if_pos hr1, e]
  · rw [if_neg hr1, if_neg hr1, e]

theorem specTokens_eq_finish (l : List Char) :
    specTokens l = specFinish (readToken l [] none) := by
  cases l with
  | nil => rfl
  | cons c cs =>
    by_cases hsp : c = ' '
    · subst hsp
      rw [specTokens_cons_space]
      have hrt : readToken (' ' :: cs) [] none = ([], cs) := by simp [readToken]
      rw [hrt]
      simp [specFinish]
    · rw [specTokens_cons c cs hsp]
      rfl

/-- Correspondence between the source tokenizer loop and the reference
tokenizer, generalized over every intermediate loop state.  (The `inQuotes`
flag of the source always equals `quoteChar.isSome`.) -/
theorem foldl_tokStep_eq (l : List Char) :
    ∀ (args : List (List Char)) (cur : List Char) (b : Bool) (q : Option Char),
      b = q.isSome →
      finishTok (l.foldl tokStep ⟨args, cur, b, q⟩) =
        args ++ specFinish (readToken l cur q) := by
  induction l with
  | nil =>
    intro args cur b q _
    simp only [List.foldl_nil, finishTok, readToken, specFinish]
    by_cases hc : cur = []
    · subst hc
      simp [specTokens, specTokensF]
    · simp [hc, specTokens, specTokensF]
  | cons c cs ih =>
    intro args cur b q hb
    rw [List.foldl_cons]
    cases q with
    | some qc =>
      simp only [Option.isSome_some] at hb
      subst hb
      by_cases hc : c = qc
      · have hstep : tokStep ⟨args, cur, true, some qc⟩ c = ⟨args, cur, false, none⟩ := by
          simp [tokStep, hc]
        rw [hstep, ih args cur false none (by simp)]
        simp only [readToken, if_pos hc]
      · have hstep : tokStep ⟨args, cur, true, some qc⟩ c = ⟨args, cur ++ [c], true, some qc⟩ := by
          simp [tokStep, hc]
        rw [hstep, ih args (cur ++ [c]) true (some qc) (by simp)]
        simp only [readToken, if_neg hc]
    | none =>
      simp only [Option.isSome_none] at hb
      subst hb
      by_cases hq : c = dquote ∨ c = squote
      · have hsp : ¬ c = ' ' := by
          rcases hq with rfl | rfl <;> decide
        have hstep : tokStep ⟨args, cur, false, none⟩ c = ⟨args, cur, true, some c⟩ := by
          simp [tokStep, hq]
        rw [hstep, ih args cur true (some c) (by simp)]
        simp only [readToken, if_neg hsp, if_pos hq]
      · by_cases hsp : c = ' '
        · subst hsp
          have hnq : ¬ (' ' = dquote ∨ ' ' = squote) := by decide
          have hrt : readToken (' ' :: cs) cur none = (cur, cs) := by simp [readToken]
          by_cases hcur : cur = []
          · subst hcur
            have hstep : tokStep ⟨args, [], false, none⟩ ' ' = ⟨args, [], false, none⟩ := by
              simp [tokStep, hnq]
            rw [hstep, ih args [] false none (by simp), hrt, ← specTokens_eq_finish]
            simp [specFinish]
          · have hstep : tokStep ⟨args, cur, false, none⟩ ' ' =
                ⟨args ++ [cur], [], false, none⟩ := by
              simp [tokStep, hnq, hcur]
            rw [hstep, ih (args ++ [cur]) [] false none (by simp), hrt,
              ← specTokens_eq_finish]
            simp [specFinish, hcur]
        · have hstep : tokStep ⟨args, cur, false, none⟩ c = ⟨args, cur ++ [c], false, none⟩ := by
            simp [tokStep, hq, hsp]
          rw [hstep, ih args (cur ++ [c]) false none (by simp)]
          simp only [readToken, if_neg hsp, if_neg hq]

/-- The source tokenizer computes exactly the reference tokenization. -/
theorem parseCommandLine_eq_spec (s : String) :
    parseCommandLine s = (specTokens s.data).map String.mk := by
  unfold parseCommandLine
  rw [foldl_tokStep_eq s.data [] [] false none rfl, specTokens_eq_finish]
  simp

/-- C8, counterexample.  The claim states that tokens split at every unquoted
whitespace character; the source splits only at the space character U+0020,
so the tab-separated input `"a\tb"` stays a single token instead of
splitting into `["a", "b"]`. -/
theorem C8_counterexample :
    parseCommandLine "a\tb" = ["a\tb"] ∧
    Char.isWhitespace '\t' = true ∧
    ((["a\tb"] : List String) == ["a", "b"]) = false :=
  ⟨by decide, by decide, by decide⟩

/-- C8 (amended): the source tokenizer computes exactly the specification's
tokenization algorithm with the separator amended from general unquoted
whitespace to the unquoted space character U+0020 (other whitespace such as
tab is ordinary token text): an unquoted `'` or `"` opens a quoted span that
only the matching quote character closes, both quote characters are consumed
and absent from the token, spaces inside an open span are preserved
literally, consecutive unquoted spaces produce no empty tokens (a token that
is empty after quote consumption is dropped), a quote opened but never
closed accepts the remainder of the input as part of the open token, and
empty input yields the empty token sequence. -/
theorem C8_amended :
    (∀ s : String, parseCommandLine s = (specTokens s.data).map String.mk) ∧
    parseCommandLine "call a \"b c\" d" = ["call", "a", "b c", "d"] ∧
    parseCommandLine (String.mk ['x', ' ', squote, 'y', ' ', 'z', squote]) = ["x", "y z"] ∧
    parseCommandLine "\"a b" = ["a b"] ∧
    parseCommandLine "a  b" = ["a", "b"] ∧
    parseCommandLine "" = [] :=
  ⟨parseCommandLine_eq_spec, by decide, by decide, by decide, by decide, by decide⟩

/-! ## Claim C9: parameter detection -/

theorem ne_dollar_of_identStart (c : Char) (h : isIdentStart c = true) : ¬ c = '$' := by
  intro he
  rw [he] at h
  exact absurd h (by decide)

theorem ne_dollar_of_identChar (c : Char) (h : isIdentChar c = true) : ¬ c = '$' := by
  intro he
  rw [he] at h
  exact absurd h (by decide)

theorem occursN_nil (x : List Char) : ¬ occursN [] x := by
  rintro ⟨_, l1, l2, heq, _⟩
  simp at heq

theorem occursN_cons_ne (c : Char) (cs x : List Char) (h : ¬ c = '$') :
    occursN (c :: cs) x ↔ occursN cs x := by
  unfold occursN
  constructor
  · rintro ⟨hid, l1, l2, heq, hb⟩
    cases l1 with
    | nil =>
      simp only [List.nil_append] at heq
      injection heq with h1 _
      exact absurd h1 h
    | cons d l1 =>
      rw [List.cons_append] at heq
      injection heq with _ h2
      exact ⟨hid, l1, l2, h2, hb⟩
  · rintro ⟨hid, l1, l2, heq, hb⟩
    exact ⟨hid, c :: l1, l2, by simp [heq], hb⟩

theorem occursN_cons_sigil (cs x : List Char) :
    occursN ('$' :: cs) x ↔ occursA cs x := by
  unfold occursN occursA occursN
  constructor
  · rintro ⟨hid, l1, l2, heq, hb⟩
    cases l1 with
    | nil =>
      simp only [List.nil_append] at heq
      injection heq with _ h2
      exact Or.inl ⟨hid, l2, h2, hb⟩
    | cons d l1 =>
      rw [List.cons_append] at heq
      injection heq with _ h2
      exact Or.inr ⟨hid, l1, l2, h2, hb⟩
  · rintro (⟨hid, l2, heq, hb⟩ | ⟨hid, l1, l2, heq, hb⟩)
    · exact ⟨hid, [], l2, by simp [heq], hb⟩
    · exact ⟨hid, '$' :: l1, l2, by simp [heq], hb⟩

theorem occursA_cons_identStart (c : Char) (cs x : List Char) (h : isIdentStart c = true) :
    occursA (c :: cs) x ↔ occursI [c] cs x := by
  have hne : ¬ c = '$' := ne_dollar_of_identStart c h
  unfold occursA occursI
  constructor
  · rintro (⟨hid, l2, heq, hb⟩ | hN)
    · cases x with
      | nil => simp [identList] at hid
      | cons x0 x' =>
        rw [List.cons_append] at heq
        injection heq with h1 h2
        subst h1
        rw [identList] at hid
        simp only [Bool.and_eq_true] at hid
        exact Or.inl ⟨x', l2, h2, hid.2, hb, rfl⟩
    · exact Or.inr ((occursN_cons_ne c cs x hne).mp hN)
  · rintro (⟨e, l2, heq, hall, hb, hx⟩ | hN)
    · subst hx
      refine Or.inl ⟨?_, l2, ?_, hb⟩
      · rw [show ([c] ++ e : List Char) = c :: e from rfl, identList]
        simp [h, hall]
      · rw [heq]
        rfl
    · exact Or.inr ((occursN_cons_ne c cs x hne).mpr hN)

theorem occursA_cons_sigil (cs x : List Char) :
    occursA ('$' :: cs) x ↔ occursA cs x := by
  constructor
  · rintro (⟨hid, l2, heq, hb⟩ | hN)
    · cases x with
      | nil => simp [identList] at hid
      | cons x0 x' =>
        rw [List.cons_append] at heq
        injection heq with h1 _
        rw [identList] at hid
        simp only [Bool.and_eq_true] at hid
        rw [← h1] at hid
        exact absurd hid.1 (by decide)
    · exact (occursN_cons_sigil cs x).mp hN
  · intro h
    exact Or.inr ((occursN_cons_sigil cs x).mpr h)

theorem occursA_cons_other (c : Char) (cs x : List Char)
    (h1 : isIdentStart c = false) (h2 : ¬ c = '$') :
    occursA (c :: cs) x ↔ occursN cs x := by
  constructor
  · rintro (⟨hid, l2, heq, hb⟩ | hN)
    · cases x with
      | nil => simp [identList] at hid
      | cons x0 x' =>
        rw [List.cons_append] at heq
        injection heq with he _
        rw [identList] at hid
        simp only [Bool.and_eq_true] at hid
        rw [← he] at hid
        exact absurd hid.1 (by simp [h1])
    · exact (occursN_cons_ne c cs x h2).mp hN
  · intro h
    exact Or.inr ((occursN_cons_ne c cs x h2).mpr h)

theorem occursI_nil (run x : List Char) : occursI run [] x ↔ x = run := by
  unfold occursI
  constructor
  · rintro (⟨e, l2, heq, hall, hb, hx⟩ | hN)
    · obtain ⟨he, hl⟩ := List.append_eq_nil.mp heq.symm
      subst he
      simpa using hx
    · exact absurd hN (occursN_nil x)
  · rintro rfl
    exact Or.inl ⟨[], [], rfl, rfl, rfl, by simp⟩

theorem occursI_cons_ident (run : List Char) (c : Char) (cs x : List Char)
    (h : isIdentChar c = true) :
    occursI run (c :: cs) x ↔ occursI (run ++ [c]) cs x := by
  have hne : ¬ c = '$' := ne_dollar_of_identChar c h
  unfold occursI
  constructor
  · rintro (⟨e, l2, heq, hall, hb, hx⟩ | hN)
    · cases e with
      | nil =>
        simp only [List.nil_append] at heq
        rw [← heq, boundaryAfter] at hb
        simp [h] at hb
      | cons e0 e' =>
        rw [List.cons_append] at heq
        injection heq with he1 he2
        subst he1
        simp only [List.all_cons, Bool.and_eq_true] at hall
        refine Or.inl ⟨e', l2, he2, hall.2, hb, ?_⟩
        rw [hx]
        simp
    · exact Or.inr ((occursN_cons_ne c cs x hne).mp hN)
  · rintro (⟨e, l2, heq, hall, hb, hx⟩ | hN)
    · refine Or.inl ⟨c :: e, l2, by simp [heq], by simp [h, hall], hb, by simp [hx]⟩
    · exact Or.inr ((occursN_cons_ne c cs x hne).mpr hN)

theorem occursI_cons_sigil (run cs x : List Char) :
    occursI run ('$' :: cs) x ↔ (x = run ∨ occursA cs x) := by
  unfold occursI
  constructor
  · rintro (⟨e, l2, heq, hall, hb, hx⟩ | hN)
    · cases e with
      | nil =>
        subst hx
        simp
      | cons e0 e' =>
        rw [List.cons_append] at heq
        injection heq with he1 _
        rw [← he1] at hall
        simp only [List.all_cons, Bool.and_eq_true] at hall
        exact absurd hall.1 (by decide)
    · exact Or.inr ((occursN_cons_sigil cs x).mp hN)
  · rintro (rfl | hA)
    · exact Or.inl ⟨[], '$' :: cs, rfl, rfl, by rw [boundaryAfter]; decide, by simp⟩
    · exact Or.inr ((occursN_cons_sigil cs x).mpr hA)

theorem occursI_cons_other (run : List Char) (c : Char) (cs x : List Char)
    (h1 : isIdentChar c = false) (h2 : ¬ c = '$') :
    occursI run (c :: cs) x ↔ (x = run ∨ occursN cs x) := by
  unfold occursI
  constructor
  · rintro (⟨e, l2, heq, hall, hb, hx⟩ | hN)
    · cases e with
      | nil =>
        subst hx
        simp
      | cons e0 e' =>
        rw [List.cons_append] at heq
        injection heq with he1 _
        rw [← he1] at hall
        simp only [List.all_cons, Bool.and_eq_true] at hall
        exact absurd hall.1 (by simp [h1])
    · exact Or.inr ((occursN_cons_ne c cs x h2).mp hN)
  · rintro (rfl | hN)
    · refine Or.inl ⟨[], c :: cs, rfl, rfl, ?_, by simp⟩
      rw [boundaryAfter, h1]
      rfl
    · exact Or.inr ((occursN_cons_ne c cs x h2).mpr hN)

/-- Characterization of the placeholder scanner: from each of its three
states, the matches it produces are exactly the occurrences described by the
corresponding occurrence predicate. -/
theorem scanPH_mem (l : List Char) :
    (∀ x, x ∈ scanPH l PHState.normal ↔ occursN l x) ∧
    (∀ x, x ∈ scanPH l PHState.afterSigil ↔ occursA l x) ∧
    (∀ run x, x ∈ scanPH l (PHState.inIdent run) ↔ occursI run l x) := by
  induction l with
  | nil =>
    refine ⟨?_, ?_, ?_⟩
    · intro x
      simp only [scanPH, List.not_mem_nil, false_iff]
      exact occursN_nil x
    · intro x
      simp only [scanPH, List.not_mem_nil, false_iff]
      rintro (⟨hid, l2, heq, _⟩ | hN)
      · obtain ⟨he, _⟩ := List.append_eq_nil.mp heq.symm
        rw [he] at hid
        simp [identList] at hid
      · exact occursN_nil x hN
    · intro run x
      simp only [scanPH, List.mem_singleton]
      exact (occursI_nil run x).symm
  | cons c cs ih =>
    obtain ⟨ihN, ihA, ihI⟩ := ih
    refine ⟨?_, ?_, ?_⟩
    · intro x
      by_cases hd : c = '$'
      · subst hd
        rw [show scanPH ('$' :: cs) PHState.normal = scanPH cs PHState.afterSigil from by
              simp [scanPH]]
        rw [ihA x, occursN_cons_sigil]
      · rw [show scanPH (c :: cs) PHState.normal = scanPH cs PHState.normal from by
              simp [scanPH, hd]]
        rw [ihN x, occursN_cons_ne c cs x hd]
    · intro x
      by_cases hs : isIdentStart c = true
      · rw [show scanPH (c :: cs) PHState.afterSigil = scanPH cs (PHState.inIdent [c]) from by
              simp [scanPH, hs]]
        rw [ihI [c] x, occursA_cons_identStart c cs x hs]
      · have hs' : isIdentStart c = false := by simpa using hs
        by_cases hd : c = '$'
        · subst hd
          rw [show scanPH ('$' :: cs) PHState.afterSigil = scanPH cs PHState.afterSigil from by
                simp [scanPH, hs']]
          rw [ihA x, occursA_cons_sigil]
        · rw [show scanPH (c :: cs) PHState.afterSigil = scanPH cs PHState.normal from by
                simp [scanPH, hs', hd]]
          rw [ihN x, occursA_cons_other c cs x hs' hd]
    · intro run x
      by_cases hic : isIdentChar c = true
      · rw [show scanPH (c :: cs) (PHState.inIdent run) =
              scanPH cs (PHState.inIdent (run ++ [c])) from by
              simp [scanPH, hic]]
        rw [ihI (run ++ [c]) x, occursI_cons_ident run c cs x hic]
      · have hic' : isIdentChar c = false := by simpa using hic
        by_cases hd : c = '$'
        · subst hd
          rw [show scanPH ('$' :: cs) (PHState.inIdent run) =
                run :: scanPH cs PHState.afterSigil from by
                simp [scanPH, hic']]
          simp only [List.mem_cons]
          rw [ihA x, occursI_cons_sigil run cs x]
        · rw [show scanPH (c :: cs) (PHState.inIdent run) =
                run :: scanPH cs PHState.normal from by
                simp [scanPH, hic', hd]]
          simp only [List.mem_cons]
          rw [ihN x, occursI_cons_other run c cs x hic' hd]

theorem dedupFirst_mem (x : String) :
    ∀ (l seen : List String), x ∈ dedupFirst seen l ↔ (x ∈ l ∧ x ∉ seen) := by
  intro l
  induction l with
  | nil => intro seen; simp [dedupFirst]
  | cons p rest ih =>
    intro seen
    by_cases hp : p ∈ seen
    · rw [dedupFirst, if_pos hp, ih]
      constructor
      · rintro ⟨h1, h2⟩
        exact ⟨List.mem_cons_of_mem _ h1, h2⟩
      · rintro ⟨h1, h2⟩
        rcases List.mem_cons.mp h1 with rfl | h1
        · exact absurd hp h2
        · exact ⟨h1, h2⟩
    · rw [dedupFirst, if_neg hp]
      constructor
      · intro hx
        rcases List.mem_cons.mp hx with rfl | hx
        · exact ⟨List.mem_cons_self _ _, hp⟩
        · obtain ⟨h1, h2⟩ := (ih (p :: seen)).mp hx
          exact ⟨List.mem_cons_of_mem _ h1, fun hs => h2 (List.mem_cons_of_mem _ hs)⟩
      · rintro ⟨h1, h2⟩
        rcases List.mem_cons.mp h1 with rfl | h1
        · exact List.mem_cons_self _ _
        · by_cases hxp : x = p
          · subst hxp
            exact List.mem_cons_self _ _
          · refine List.mem_cons_of_mem _ ((ih (p :: seen)).mpr ⟨h1, ?_⟩)
            intro hs
            rcases List.mem_cons.mp hs with h | h
            · exact hxp h
            · exact h2 h

theorem dedupFirst_nodup : ∀ (l seen : List String), (dedupFirst seen l).Nodup := by
  intro l
  induction l with
  | nil => intro seen; simp [dedupFirst]
  | cons p rest ih =>
    intro seen
    by_cases hp : p ∈ seen
    · rw [dedupFirst, if_pos hp]
      exact ih seen
    · rw [dedupFirst, if_neg hp]
      refine List.nodup_cons.mpr ⟨?_, ih (p :: seen)⟩
      intro hmem
      exact ((dedupFirst_mem p rest (p :: seen)).mp hmem).2 (List.mem_cons_self _ _)

/-- C9, counterexample.  The claim describes the returned identifiers as
those `x` for which the body contains `'$'` immediately followed by `x`.  In
the body `"$ab"` the identifier `"a"` satisfies that description (the body
decomposes as `'$'` followed by `"a"` followed by `"b"`), yet the source's
regex scan, which matches maximal identifiers, returns only `["ab"]`. -/
theorem C9_counterexample :
    "$ab".data = [] ++ '$' :: ("a".data ++ ['b']) ∧
    isIdentStr "a" = true ∧
    parseParametersFromTemplate "$ab" = ["ab"] ∧
    (parseParametersFromTemplate "$ab").contains "a" = false :=
  ⟨by decide, by decide, by decide, by decide⟩

/-- C9 (amended): `parseParametersFromTemplate` returns exactly the
identifiers `x` for which the body contains an occurrence of the sigil `'$'`
immediately followed by `x` where `x` is the *maximal* identifier run at that
position (the occurrence is not followed by a further identifier character),
each distinct identifier listed once in first-occurrence order (the result is
duplicate-free, and the worked example of the claim holds). -/
theorem C9_amended :
    (∀ (t x : String), x ∈ parseParametersFromTemplate t ↔ occursPH t x) ∧
    (∀ t : String, (parseParametersFromTemplate t).Nodup) ∧
    parseParametersFromTemplate "call $w $addr \"m($x)\"" = ["w", "addr", "x"] ∧
    parseParametersFromTemplate "call $w $addr $w" = ["w", "addr"] := by
  refine ⟨?_, ?_, by decide, by decide⟩
  · intro t x
    unfold parseParametersFromTemplate occursPH
    rw [dedupFirst_mem]
    simp only [List.not_mem_nil, not_false_eq_true, and_true]
    rw [List.mem_map]
    constructor
    · rintro ⟨lx, hmem, rfl⟩
      exact ((scanPH_mem t.data).1 lx).mp hmem
    · intro h
      exact ⟨x.data, ((scanPH_mem t.data).1 x.data).mpr h, rfl⟩
  · intro t
    exact dedupFirst_nodup _ _

end EthersWalletCli
